import Mathlib

/-!
# Verification of the `dedup` duplicate-file index (src/main.rs)

This file is a shallow embedding of the core of the `dedup` tool:
the hasher (`short_hash`, `compute_full_hash`, `full_hash`), the duplicate
index (`check_index` over `Index` / `SizeMapEntry`), the driver loop of
`main`, and the relative-path resolver (`relative_path`).

Modelling choices:

* A file is its content, a `List Nat` of bytes; the environment
  `fs : PathBuf → List Nat` plays the role of the filesystem, and a file's
  size (`entry.metadata().len()`) is the length of its content.
* Paths are opaque identifiers (`PathBuf := Nat`) for the index part; the
  path resolver works on the canonicalized component sequences that
  `Path::components()` yields, with canonicalization itself being the
  external `canonicalize` syscall.
* SHA-256 is collision-resistant, so two digests are equal exactly when the
  byte sequences fed to the hasher are equal.  A digest (`Hash`) is
  therefore modelled by the exact message hashed: `short_hash` returns the
  64 KiB buffer it hashes, `compute_full_hash` the concatenation of the
  64 KiB buffers hashed by its read loop.  Equality of modelled digests
  coincides with equality of the real digests under that assumption.
* `BTreeMap`/`HashMap`/`MultiMap` are modelled as association lists;
  `MultiMap::get_slice` returns the values registered under a key in
  insertion order, which the association-list model preserves.
* `read` on a regular file delivers `min (buffer length) (bytes remaining)`
  bytes, the behaviour the read loops of the source are written for.
* I/O errors abort the run (`io::Result` propagation); the embedding
  models the success path, which is all the claims speak about.
-/

namespace Dedup

/-- Block length for the partial digest (64 KiB), from `HASH_BLOCK_LEN`. -/
def HASH_BLOCK_LEN : Nat := 65536

/-- Buffer length for the full digest (64 KiB), from `HASH_BUFLEN`. -/
def HASH_BUFLEN : Nat := 65536

/-- Paths are opaque identifiers for the index part of the development. -/
abbrev PathBuf := Nat

/-- A digest, modelled by the byte message fed to the hasher (SHA-256 is
assumed collision-free, so digest equality is message equality). -/
abbrev Hash := List Nat

/-- Look up a key in an association list (first matching entry). -/
def lookupA {κ : Type} {ν : Type} [DecidableEq κ] (l : List (κ × ν)) (k : κ) : Option ν :=
  match l with
  | [] => none
  | (k', v) :: rest => if k' = k then some v else lookupA rest k

/-- Replace the value at a key, or append the binding if the key is absent
(model of `BTreeMap` entry insertion / occupied-slot assignment). -/
def insertA {κ : Type} {ν : Type} [DecidableEq κ] (l : List (κ × ν)) (k : κ) (v : ν) :
    List (κ × ν) :=
  match l with
  | [] => [(k, v)]
  | (k', v') :: rest => if k' = k then (k, v) :: rest else (k', v') :: insertA rest k v

/-- The partial digest `short_hash`: the file is read into a zero-initialized 64 KiB buffer
(looping until the buffer is full or end-of-file), and the whole buffer is
hashed.  The message hashed is the first 64 KiB of content, zero-padded to
64 KiB. -/
def short_hash (c : List Nat) : Hash :=
  c.take HASH_BLOCK_LEN ++ List.replicate (HASH_BLOCK_LEN - c.length) 0

/-- The read loop of `compute_full_hash`: `buf` is the current contents of
the 64 KiB buffer (not zeroed between reads), `c` the bytes not yet read.
Each iteration reads up to 64 KiB over the front of the buffer and hashes
the whole buffer; the result is the concatenation of the hashed buffers. -/
def hashChunksGo (buf : List Nat) (c : List Nat) : List Nat :=
  if c.isEmpty then []
  else
    let rd := c.take HASH_BUFLEN
    let buf' := rd ++ buf.drop rd.length
    buf' ++ hashChunksGo buf' (c.drop HASH_BUFLEN)
termination_by c.length
decreasing_by
  simp only [List.length_drop]
  have hb : 0 < HASH_BUFLEN := by decide
  have hc : c ≠ [] := by simpa [List.isEmpty_iff] using (by assumption : ¬c.isEmpty = true)
  have : 0 < c.length := List.length_pos.mpr hc
  omega

/-- The full digest `compute_full_hash`: streams the file through a zero-initialized 64 KiB
buffer, hashing the whole buffer after every read. -/
def compute_full_hash (c : List Nat) : Hash :=
  hashChunksGo (List.replicate HASH_BUFLEN 0) c

/-- Memoized full digest `full_hash`.  Returns the cached digest when the
path is present; otherwise computes it, stores it and returns it. -/
def full_hash (fs : PathBuf → List Nat) (path : PathBuf)
    (full_hashes : List (PathBuf × Hash)) : Hash × List (PathBuf × Hash) :=
  match lookupA full_hashes path with
  | some h => (h, full_hashes)
  | none =>
      let h := compute_full_hash (fs path)
      (h, full_hashes ++ [(path, h)])

/-- A size bucket `SizeMapEntry`: it is either a single path with no digest
computed yet, or a multimap from partial digest to paths. -/
inductive SizeMapEntry where
  | One : PathBuf → SizeMapEntry
  | Multiple : List (Hash × PathBuf) → SizeMapEntry
deriving DecidableEq

/-- The duplicate index: size → bucket, plus the full-digest cache. -/
structure Index where
  size_map : List (Nat × SizeMapEntry)
  full_hashes : List (PathBuf × Hash)
deriving DecidableEq

/-- The empty index created at the start of `main`. -/
def emptyIndex : Index := ⟨[], []⟩

/-- Model of `MultiMap::get_slice`: the paths registered under a partial digest, in
insertion order (empty when the key is absent). -/
def sliceA (m : List (Hash × PathBuf)) (h : Hash) : List PathBuf :=
  (m.filter (fun e => decide (e.1 = h))).map (fun e => e.2)

/-- The candidate loop of the `Multiple` branch of `check_index`: compare
the new path's full digest with each candidate's, in order, threading the
digest cache; stop at the first match. -/
def findDup (fs : PathBuf → List Nat) (path : PathBuf) :
    List PathBuf → List (PathBuf × Hash) → Option PathBuf × List (PathBuf × Hash)
  | [], cache => (none, cache)
  | prev :: rest, cache =>
      let r1 := full_hash fs prev cache
      let r2 := full_hash fs path r1.2
      if r1.1 = r2.1 then (some prev, r2.2) else findDup fs path rest r2.2

/-- Registration `check_index`: register a path in the index.  Returns `some prev` when
the path's content duplicates an already-registered path `prev` (and the
updated index), `none` when it introduces new content. -/
def check_index (fs : PathBuf → List Nat) (path : PathBuf) (index : Index) :
    Option PathBuf × Index :=
  let size := (fs path).length
  match lookupA index.size_map size with
  | none =>
      (none, { index with size_map := insertA index.size_map size (SizeMapEntry.One path) })
  | some (SizeMapEntry.One prev_path) =>
      let prev_hash := short_hash (fs prev_path)
      let new_hash := short_hash (fs path)
      let upgraded := SizeMapEntry.Multiple [(prev_hash, prev_path), (new_hash, path)]
      if new_hash = prev_hash then
        let r1 := full_hash fs prev_path index.full_hashes
        let r2 := full_hash fs path r1.2
        if r1.1 = r2.1 then
          (some prev_path, { index with full_hashes := r2.2 })
        else
          (none, { size_map := insertA index.size_map size upgraded, full_hashes := r2.2 })
      else
        (none, { index with size_map := insertA index.size_map size upgraded })
  | some (SizeMapEntry.Multiple hash_map) =>
      let new_hash := short_hash (fs path)
      let r := findDup fs path (sliceA hash_map new_hash) index.full_hashes
      let inserted := SizeMapEntry.Multiple (hash_map ++ [(new_hash, path)])
      match r.1 with
      | some prev_path => (some prev_path, { index with full_hashes := r.2 })
      | none =>
          (none, { size_map := insertA index.size_map size inserted, full_hashes := r.2 })

/-- The index after registering a sequence of entries in traversal order. -/
def runIndex (fs : PathBuf → List Nat) (paths : List PathBuf) : Index :=
  paths.foldl (fun i p => (check_index fs p i).2) emptyIndex

/-- The counters accumulated by `main`. -/
structure RunStats where
  num_files : Nat
  num_actions : Nat
  saved_bytes : Nat
deriving DecidableEq

/-- One iteration of the traversal loop of `main` for a yielded file entry:
include the file only when `size > min_size`; on a duplicate of a distinct
path, record one action and its size. -/
def mainStep (fs : PathBuf → List Nat) (minSize : Nat) (st : RunStats × Index)
    (p : PathBuf) : RunStats × Index :=
  let size := (fs p).length
  if minSize < size then
    let r := check_index fs p st.2
    match r.1 with
    | some prev_path =>
        if prev_path ≠ p then
          (⟨st.1.num_files + 1, st.1.num_actions + 1, st.1.saved_bytes + size⟩, r.2)
        else
          (⟨st.1.num_files + 1, st.1.num_actions, st.1.saved_bytes⟩, r.2)
    | none => (⟨st.1.num_files + 1, st.1.num_actions, st.1.saved_bytes⟩, r.2)
  else st

/-- The traversal loop of `main` over the file entries, in traversal
order, starting from fresh counters and an empty index. -/
def mainLoop (fs : PathBuf → List Nat) (minSize : Nat) (entries : List PathBuf) :
    RunStats × Index :=
  entries.foldl (mainStep fs minSize) (⟨0, 0, 0⟩, emptyIndex)

/-- A component of a canonical path, after `Path::components()`
(`Prefix` does not occur on Unix). -/
inductive Component where
  | rootDir
  | curDir
  | parentDir
  | normal : String → Component
deriving DecidableEq

/-- Whether a component is a plain named segment (`Component::Normal`). -/
def isNormalComp (c : Component) : Bool :=
  match c with
  | Component.normal _ => true
  | _ => false

/-- The lockstep loop of `relative_path`: advance both component iterators
while they agree; `iter_base.next()` is consumed even on the breaking
iteration, `iter_target` is only peeked.  Returns the residual component
sequences of base and target. -/
def walkLoop : List Component → List Component → List Component × List Component
  | [], ts => ([], ts)
  | _ :: bs, [] => (bs, [])
  | b :: bs, t :: ts => if b = t then walkLoop bs ts else (bs, t :: ts)

/-- The resolver `relative_path` on the canonicalized component sequences of base and
target: each residual base component is mapped to `..` (a residual
component that is not `Normal` hits the `panic!`, modelled as `none`),
then the residual target components are appended verbatim. -/
def relative_path (absBase absTarget : List Component) : Option (List Component) :=
  let r := walkLoop absBase absTarget
  if r.1.all isNormalComp then
    some (r.1.map (fun _ => Component.parentDir) ++ r.2)
  else none

/-- Length of the longest common leading prefix of two component lists. -/
def commonPrefixLen : List Component → List Component → Nat
  | b :: bs, t :: ts => if b = t then commonPrefixLen bs ts + 1 else 0
  | _, _ => 0

/-- The relative path as the words of the spec describe it: one `..` for
each component of base beyond the common prefix, then the residual target
components verbatim.  (Spec-side definition, for comparison.) -/
def relative_path_claimed (b t : List Component) : List Component :=
  List.replicate (b.length - commonPrefixLen b t) Component.parentDir
    ++ t.drop (commonPrefixLen b t)

/-- Resolve a relative component sequence from a directory: `..` drops the
last component, `.` is a no-op, any other component is appended. -/
def resolve (dir : List Component) (rel : List Component) : List Component :=
  rel.foldl
    (fun acc c =>
      match c with
      | Component.parentDir => acc.dropLast
      | Component.curDir => acc
      | c => acc ++ [c])
    dir

/-- A canonicalized absolute Unix path: the root followed by plain named
segments only. -/
def isAbsCanonical (l : List Component) : Bool :=
  match l with
  | Component.rootDir :: rest => rest.all isNormalComp
  | _ => false

/-- The full digest's message as the spec claims it: the content with the
final, possibly-partial chunk zero-padded to the 64 KiB block size.
(Spec-side definition, for comparison.) -/
def zeroPadFullMsg (c : List Nat) : List Nat :=
  if c.length % HASH_BUFLEN = 0 then c
  else c ++ List.replicate (HASH_BUFLEN - c.length % HASH_BUFLEN) 0

/-! ## Association-list lemmas -/

theorem lookupA_insertA_self {κ ν : Type} [DecidableEq κ] (l : List (κ × ν)) (k : κ) (v : ν) :
    lookupA (insertA l k v) k = some v := by
  induction l with
  | nil => simp [insertA, lookupA]
  | cons hd tl ih =>
      obtain ⟨k', v'⟩ := hd
      by_cases h : k' = k
      · simp [insertA, lookupA, h]
      · simp [insertA, lookupA, h, ih]

theorem lookupA_insertA_ne {κ ν : Type} [DecidableEq κ] (l : List (κ × ν)) (k : κ) (v : ν)
    (k' : κ) (h : k' ≠ k) : lookupA (insertA l k v) k' = lookupA l k' := by
  have hne : ¬k = k' := fun hh => h hh.symm
  induction l with
  | nil => simp [insertA, lookupA, hne]
  | cons hd tl ih =>
      obtain ⟨k₀, v₀⟩ := hd
      by_cases h0 : k₀ = k
      · subst h0
        simp [insertA, lookupA, hne]
      · simp only [insertA, if_neg h0, lookupA]
        by_cases h1 : k₀ = k'
        · simp [h1]
        · simp [h1, ih]

theorem lookupA_append_some {κ ν : Type} [DecidableEq κ] (l l' : List (κ × ν)) (k : κ) (v : ν)
    (h : lookupA l k = some v) : lookupA (l ++ l') k = some v := by
  induction l with
  | nil => simp [lookupA] at h
  | cons hd tl ih =>
      obtain ⟨k₀, v₀⟩ := hd
      by_cases h0 : k₀ = k
      · simp only [lookupA, if_pos h0] at h
        simp [lookupA, h0, h]
      · simp only [lookupA, if_neg h0] at h
        simp [lookupA, h0, ih h]

theorem lookupA_append_none {κ ν : Type} [DecidableEq κ] (l l' : List (κ × ν)) (k : κ)
    (h : lookupA l k = none) : lookupA (l ++ l') k = lookupA l' k := by
  induction l with
  | nil => simp
  | cons hd tl ih =>
      obtain ⟨k₀, v₀⟩ := hd
      by_cases h0 : k₀ = k
      · simp [lookupA, h0] at h
      · simp only [lookupA, if_neg h0] at h
        simp [lookupA, h0, ih h]

/-! ## Hasher lemmas -/

theorem hashChunksGo_nil (buf : List Nat) : hashChunksGo buf [] = [] := by
  rw [hashChunksGo]
  simp

theorem hashChunksGo_ne_nil (buf c : List Nat) (h : c ≠ []) :
    hashChunksGo buf c =
      (c.take HASH_BUFLEN ++ buf.drop (c.take HASH_BUFLEN).length)
        ++ hashChunksGo (c.take HASH_BUFLEN ++ buf.drop (c.take HASH_BUFLEN).length)
            (c.drop HASH_BUFLEN) := by
  rw [hashChunksGo]
  simp [List.isEmpty_iff, h]

theorem chunkBuf_length (buf c : List Nat) (hb : buf.length = HASH_BUFLEN) :
    (c.take HASH_BUFLEN ++ buf.drop (c.take HASH_BUFLEN).length).length = HASH_BUFLEN := by
  have h1 : (c.take HASH_BUFLEN).length ≤ HASH_BUFLEN := by
    simp [List.length_take]
  simp only [List.length_append, List.length_drop, hb]
  omega

/-- The hashed messages of two same-size contents are equal only when the
contents are equal (the buffers' chunk regions determine the content). -/
theorem hashChunksGo_inj (n : Nat) : ∀ c₁ c₂ buf₁ buf₂ : List Nat, c₁.length ≤ n →
    c₁.length = c₂.length → buf₁.length = HASH_BUFLEN → buf₂.length = HASH_BUFLEN →
    hashChunksGo buf₁ c₁ = hashChunksGo buf₂ c₂ → c₁ = c₂ := by
  induction n with
  | zero =>
      intro c₁ c₂ _ _ hle hlen _ _ _
      have h1 : c₁ = [] := List.eq_nil_of_length_eq_zero (Nat.le_zero.mp hle)
      have h2 : c₂ = [] := List.eq_nil_of_length_eq_zero (by omega)
      rw [h1, h2]
  | succ n ih =>
      intro c₁ c₂ buf₁ buf₂ hle hlen hb₁ hb₂ heq
      by_cases h1 : c₁ = []
      · have h2 : c₂ = [] := List.eq_nil_of_length_eq_zero (by rw [← hlen, h1]; rfl)
        rw [h1, h2]
      · have h2 : c₂ ≠ [] := by
          intro h2
          exact h1 (List.eq_nil_of_length_eq_zero (by rw [hlen, h2]; rfl))
        rw [hashChunksGo_ne_nil buf₁ c₁ h1, hashChunksGo_ne_nil buf₂ c₂ h2] at heq
        have hbl₁ := chunkBuf_length buf₁ c₁ hb₁
        have hbl₂ := chunkBuf_length buf₂ c₂ hb₂
        have hsplit := List.append_inj heq (by rw [hbl₁, hbl₂])
        have hbufeq := hsplit.1
        have htaillen : (c₁.take HASH_BUFLEN).length = (c₂.take HASH_BUFLEN).length := by
          simp [List.length_take, hlen]
        have htake : c₁.take HASH_BUFLEN = c₂.take HASH_BUFLEN :=
          (List.append_inj hbufeq htaillen).1
        have hpos : 0 < c₁.length := List.length_pos.mpr h1
        have hdrop : c₁.drop HASH_BUFLEN = c₂.drop HASH_BUFLEN := by
          refine ih (c₁.drop HASH_BUFLEN) (c₂.drop HASH_BUFLEN) _ _ ?_ ?_ hbl₁ hbl₂ hsplit.2
          · simp only [List.length_drop]
            have : 0 < HASH_BUFLEN := by decide
            omega
          · simp [List.length_drop, hlen]
        calc c₁ = c₁.take HASH_BUFLEN ++ c₁.drop HASH_BUFLEN := (List.take_append_drop _ _).symm
          _ = c₂.take HASH_BUFLEN ++ c₂.drop HASH_BUFLEN := by rw [htake, hdrop]
          _ = c₂ := List.take_append_drop _ _

theorem compute_full_hash_inj (c₁ c₂ : List Nat) (hlen : c₁.length = c₂.length)
    (h : compute_full_hash c₁ = compute_full_hash c₂) : c₁ = c₂ :=
  hashChunksGo_inj c₁.length c₁ c₂ _ _ (Nat.le_refl _) hlen (by simp) (by simp) h

/-- Every digest in the cache is the full digest of that path's content. -/
def CacheInv (fs : PathBuf → List Nat) (c : List (PathBuf × Hash)) : Prop :=
  ∀ q h, lookupA c q = some h → h = compute_full_hash (fs q)

theorem cacheInv_nil (fs : PathBuf → List Nat) : CacheInv fs [] := by
  intro q h hq
  simp [lookupA] at hq

theorem full_hash_fst (fs : PathBuf → List Nat) (q : PathBuf) (c : List (PathBuf × Hash))
    (hc : CacheInv fs c) : (full_hash fs q c).1 = compute_full_hash (fs q) := by
  unfold full_hash
  cases hl : lookupA c q with
  | none => simp
  | some h => simpa using hc q h hl

theorem full_hash_cacheInv (fs : PathBuf → List Nat) (q : PathBuf) (c : List (PathBuf × Hash))
    (hc : CacheInv fs c) : CacheInv fs (full_hash fs q c).2 := by
  unfold full_hash
  cases hl : lookupA c q with
  | some h => simpa using hc
  | none =>
      simp only
      intro q' h' hq'
      cases hl' : lookupA c q' with
      | some h'' =>
          rw [lookupA_append_some c _ q' h'' hl'] at hq'
          exact (Option.some.inj hq') ▸ hc q' h'' hl'
      | none =>
          rw [lookupA_append_none c _ q' hl'] at hq'
          by_cases hq : q = q'
          · subst hq
            simp [lookupA] at hq'
            rw [← hq']
          · simp [lookupA, hq] at hq'

theorem findDup_spec (fs : PathBuf → List Nat) (p : PathBuf) :
    ∀ (cand : List PathBuf) (c : List (PathBuf × Hash)), CacheInv fs c →
      (findDup fs p cand c).1 =
        cand.find? (fun q => decide (compute_full_hash (fs q) = compute_full_hash (fs p)))
      ∧ CacheInv fs (findDup fs p cand c).2 := by
  intro cand
  induction cand with
  | nil => intro c hc; exact ⟨rfl, hc⟩
  | cons prev rest ih =>
      intro c hc
      have hc1 := full_hash_cacheInv fs prev c hc
      have hc2 := full_hash_cacheInv fs p _ hc1
      have e1 := full_hash_fst fs prev c hc
      have e2 := full_hash_fst fs p _ hc1
      have hcond : ((full_hash fs prev c).1 = (full_hash fs p (full_hash fs prev c).2).1)
          ↔ compute_full_hash (fs prev) = compute_full_hash (fs p) := by rw [e1, e2]
      by_cases heq : compute_full_hash (fs prev) = compute_full_hash (fs p)
      · have hif := hcond.mpr heq
        simp only [findDup, if_pos hif]
        exact ⟨by simp [List.find?, heq], hc2⟩
      · have hif : ¬(full_hash fs prev c).1 = (full_hash fs p (full_hash fs prev c).2).1 :=
          fun hh => heq (hcond.mp hh)
        simp only [findDup, if_neg hif]
        refine ⟨?_, (ih _ hc2).2⟩
        rw [(ih _ hc2).1]
        simp [List.find?, heq]

/-! ## Full-digest message structure (for the zero-padding claim) -/

theorem hashChunksGo_of_dvd (n : Nat) : ∀ c buf : List Nat, c.length ≤ n →
    buf.length = HASH_BUFLEN → HASH_BUFLEN ∣ c.length → hashChunksGo buf c = c := by
  induction n with
  | zero =>
      intro c buf hle _ _
      have : c = [] := List.eq_nil_of_length_eq_zero (Nat.le_zero.mp hle)
      rw [this, hashChunksGo_nil]
  | succ n ih =>
      intro c buf hle hb hdvd
      by_cases h : c = []
      · rw [h, hashChunksGo_nil]
      · have hpos : 0 < c.length := List.length_pos.mpr h
        have hge : HASH_BUFLEN ≤ c.length := Nat.le_of_dvd hpos hdvd
        have htake : (c.take HASH_BUFLEN).length = HASH_BUFLEN := by
          simp [List.length_take]
          omega
        have hbuf' : c.take HASH_BUFLEN ++ buf.drop (c.take HASH_BUFLEN).length
            = c.take HASH_BUFLEN := by
          rw [htake, ← hb, List.drop_length, List.append_nil]
        rw [hashChunksGo_ne_nil buf c h, hbuf']
        have hrec : hashChunksGo (c.take HASH_BUFLEN) (c.drop HASH_BUFLEN)
            = c.drop HASH_BUFLEN := by
          refine ih _ _ ?_ htake ?_
          · simp only [List.length_drop]
            have : 0 < HASH_BUFLEN := by decide
            omega
          · simp only [List.length_drop]
            exact (Nat.dvd_sub' hdvd (Dvd.intro 1 (by ring)))
        rw [hrec, List.take_append_drop]

/-- For a non-empty content of at most one block, the hashed message is the
content zero-padded to the block size (single read over the zeroed buffer). -/
theorem compute_full_hash_small (c : List Nat) (hpos : 0 < c.length)
    (hle : c.length ≤ HASH_BUFLEN) :
    compute_full_hash c = c ++ List.replicate (HASH_BUFLEN - c.length) 0 := by
  have h : c ≠ [] := List.length_pos.mp hpos
  unfold compute_full_hash
  rw [hashChunksGo_ne_nil _ c h]
  have htake : c.take HASH_BUFLEN = c := List.take_of_length_le hle
  have hdrop : c.drop HASH_BUFLEN = [] := List.drop_eq_nil_of_le hle
  rw [htake, hdrop, hashChunksGo_nil, List.append_nil, List.drop_replicate]

/-! ## The index invariant -/

/-- The registered paths whose size is `s`, in traversal order. -/
def sizeFilter (fs : PathBuf → List Nat) (s : Nat) (paths : List PathBuf) : List PathBuf :=
  paths.filter (fun q => decide ((fs q).length = s))

/-- The paths with the same content as `p`. -/
def contentEq (fs : PathBuf → List Nat) (p : PathBuf) : PathBuf → Bool :=
  fun q => decide (fs q = fs p)

/-- What a size bucket holds after registering `paths`, at size `s`:
no bucket iff no path of that size; a `One prev` bucket iff all paths of
that size share `prev`'s content and `prev` came first; a `Multiple m`
bucket maps each first-seen content of that size to its first path, keyed
by partial digest. -/
def SizeInvEntry (fs : PathBuf → List Nat) (paths : List PathBuf) (s : Nat) :
    Option SizeMapEntry → Prop
  | none => sizeFilter fs s paths = []
  | some (SizeMapEntry.One prev) =>
      (sizeFilter fs s paths).head? = some prev ∧
        ∀ q ∈ sizeFilter fs s paths, fs q = fs prev
  | some (SizeMapEntry.Multiple m) =>
      (∀ e ∈ m, e.1 = short_hash (fs e.2) ∧
          (sizeFilter fs s paths).find? (contentEq fs e.2) = some e.2) ∧
        ∀ q ∈ sizeFilter fs s paths, ∃ e ∈ m, fs e.2 = fs q

/-- The full index invariant after registering `paths`. -/
def Inv (fs : PathBuf → List Nat) (paths : List PathBuf) (i : Index) : Prop :=
  CacheInv fs i.full_hashes ∧ ∀ s, SizeInvEntry fs paths s (lookupA i.size_map s)

theorem sizeFilter_append_self (fs : PathBuf → List Nat) (paths : List PathBuf) (p : PathBuf) :
    sizeFilter fs (fs p).length (paths ++ [p]) = sizeFilter fs (fs p).length paths ++ [p] := by
  simp [sizeFilter, List.filter_append]

theorem sizeFilter_append_ne (fs : PathBuf → List Nat) (paths : List PathBuf) (p : PathBuf)
    (s : Nat) (h : (fs p).length ≠ s) :
    sizeFilter fs s (paths ++ [p]) = sizeFilter fs s paths := by
  simp [sizeFilter, List.filter_append, h]

theorem mem_sizeFilter_length (fs : PathBuf → List Nat) (s : Nat) (paths : List PathBuf)
    (q : PathBuf) (h : q ∈ sizeFilter fs s paths) : (fs q).length = s := by
  have := List.of_mem_filter h
  simpa using this

theorem findq_append_some {α : Type} (l l' : List α) (pred : α → Bool) (a : α)
    (h : l.find? pred = some a) : (l ++ l').find? pred = some a := by
  induction l with
  | nil => simp [List.find?] at h
  | cons hd tl ih =>
      cases hp : pred hd with
      | true =>
          rw [List.find?_cons_of_pos _ hp] at h
          rw [List.cons_append, List.find?_cons_of_pos _ hp]
          exact h
      | false =>
          have hnp : ¬pred hd = true := by simp [hp]
          rw [List.find?_cons_of_neg _ hnp] at h
          rw [List.cons_append, List.find?_cons_of_neg _ hnp]
          exact ih h

theorem findq_append_none {α : Type} (l l' : List α) (pred : α → Bool)
    (h : l.find? pred = none) : (l ++ l').find? pred = l'.find? pred := by
  induction l with
  | nil => simp
  | cons hd tl ih =>
      cases hp : pred hd with
      | true => rw [List.find?_cons_of_pos _ hp] at h; exact absurd h (by simp)
      | false =>
          have hnp : ¬pred hd = true := by simp [hp]
          rw [List.find?_cons_of_neg _ hnp] at h
          rw [List.cons_append, List.find?_cons_of_neg _ hnp]
          exact ih h

theorem findq_unique {α : Type} (l : List α) (pred : α → Bool) (a : α) (ha : a ∈ l)
    (hpa : pred a = true) (huniq : ∀ b ∈ l, pred b = true → b = a) :
    l.find? pred = some a := by
  induction l with
  | nil => simp at ha
  | cons hd tl ih =>
      cases hp : pred hd with
      | true =>
          rw [List.find?_cons_of_pos _ hp]
          exact congrArg some (huniq hd (List.mem_cons_self hd tl) hp)
      | false =>
          rw [List.find?_cons_of_neg _ (by simp [hp])]
          have hne : a ≠ hd := fun he => by rw [he] at hpa; rw [hpa] at hp; exact Bool.noConfusion hp
          refine ih ?_ ?_
          · rcases List.mem_cons.mp ha with h | h
            · exact absurd h hne
            · exact h
          · intro b hb hpb
            exact huniq b (List.mem_cons_of_mem hd hb) hpb

theorem compute_eq_iff (c₁ c₂ : List Nat) (hlen : c₁.length = c₂.length) :
    compute_full_hash c₁ = compute_full_hash c₂ ↔ c₁ = c₂ :=
  ⟨fun h => compute_full_hash_inj c₁ c₂ hlen h, fun h => by rw [h]⟩

theorem mem_sliceA (m : List (Hash × PathBuf)) (h : Hash) (q : PathBuf) :
    q ∈ sliceA m h ↔ (h, q) ∈ m := by
  constructor
  · intro hq
    obtain ⟨e, he, heq⟩ := List.mem_map.mp hq
    have hf := List.mem_filter.mp he
    have h1 : e.1 = h := of_decide_eq_true hf.2
    have : e = (h, q) := by
      obtain ⟨e1, e2⟩ := e
      simp only at h1 heq
      rw [h1, heq]
    exact this ▸ hf.1
  · intro hm
    refine List.mem_map.mpr ⟨(h, q), List.mem_filter.mpr ⟨hm, by simp⟩, rfl⟩

theorem sizeInvEntry_filter_congr (fs : PathBuf → List Nat) (paths paths' : List PathBuf)
    (s : Nat) (o : Option SizeMapEntry)
    (h : sizeFilter fs s paths' = sizeFilter fs s paths) (hi : SizeInvEntry fs paths s o) :
    SizeInvEntry fs paths' s o := by
  cases o with
  | none => simpa [SizeInvEntry, h] using hi
  | some e =>
      cases e with
      | One prev => simpa [SizeInvEntry, h] using hi
      | Multiple m => simpa [SizeInvEntry, h] using hi

theorem headq_append_left {α : Type} (l l' : List α) (h : l ≠ []) :
    (l ++ l').head? = l.head? := by
  cases l with
  | nil => exact absurd rfl h
  | cons a t => simp

theorem headq_some_mem {α : Type} (l : List α) (a : α) (h : l.head? = some a) : a ∈ l := by
  cases l with
  | nil => simp at h
  | cons b t =>
      simp only [List.head?] at h
      rw [Option.some.inj h]
      exact List.mem_cons_self a t

theorem contentEq_congr (fs : PathBuf → List Nat) (a b : PathBuf) (h : fs a = fs b) :
    contentEq fs a = contentEq fs b := by
  funext r
  simp [contentEq, h]

theorem findq_sizeFilter (fs : PathBuf → List Nat) (p : PathBuf) (paths : List PathBuf) :
    (sizeFilter fs (fs p).length paths).find? (contentEq fs p)
      = paths.find? (contentEq fs p) := by
  induction paths with
  | nil => simp [sizeFilter]
  | cons q rest ih =>
      by_cases hq : fs q = fs p
      · have hlen : (fs q).length = (fs p).length := by rw [hq]
        have hmem : sizeFilter fs (fs p).length (q :: rest)
            = q :: sizeFilter fs (fs p).length rest := by
          simp [sizeFilter, List.filter_cons, hlen]
        rw [hmem, List.find?_cons_of_pos _ (by simp [contentEq, hq]),
          List.find?_cons_of_pos _ (by simp [contentEq, hq])]
      · have hpred : contentEq fs p q = false := by simp [contentEq, hq]
        by_cases hlen : (fs q).length = (fs p).length
        · have hmem : sizeFilter fs (fs p).length (q :: rest)
              = q :: sizeFilter fs (fs p).length rest := by
            simp [sizeFilter, List.filter_cons, hlen]
          rw [hmem, List.find?_cons_of_neg _ (by simp [hpred]),
            List.find?_cons_of_neg _ (by simp [hpred])]
          exact ih
        · have hmem : sizeFilter fs (fs p).length (q :: rest)
              = sizeFilter fs (fs p).length rest := by
            simp [sizeFilter, List.filter_cons, hlen]
          rw [hmem, List.find?_cons_of_neg _ (by simp [hpred])]
          exact ih

theorem check_index_step_vacant (fs : PathBuf → List Nat) (paths : List PathBuf)
    (p : PathBuf) (i : Index) (hinv : Inv fs paths i)
    (hbucket : lookupA i.size_map (fs p).length = none) :
    (check_index fs p i).1 = (sizeFilter fs (fs p).length paths).find? (contentEq fs p)
      ∧ Inv fs (paths ++ [p]) (check_index fs p i).2 := by
  obtain ⟨hcache, hsize⟩ := hinv
  have hF : sizeFilter fs (fs p).length paths = [] := by
    have := hsize (fs p).length
    rw [hbucket] at this
    exact this
  have hres : check_index fs p i =
      (none, { i with size_map := insertA i.size_map (fs p).length (SizeMapEntry.One p) }) := by
    simp only [check_index, hbucket]
  refine ⟨by rw [hres, hF]; simp, ?_⟩
  rw [hres]
  refine ⟨hcache, ?_⟩
  intro s
  by_cases hs : (fs p).length = s
  · subst hs
    rw [lookupA_insertA_self]
    simp only [SizeInvEntry]
    rw [sizeFilter_append_self, hF]
    constructor
    · simp
    · intro q hq
      simp at hq
      rw [hq]
  · rw [lookupA_insertA_ne _ _ _ _ (fun hh => hs hh.symm)]
    exact sizeInvEntry_filter_congr fs paths (paths ++ [p]) s _
      (sizeFilter_append_ne fs paths p s hs) (hsize s)

theorem check_index_step_one (fs : PathBuf → List Nat) (paths : List PathBuf)
    (p prev : PathBuf) (i : Index) (hinv : Inv fs paths i)
    (hbucket : lookupA i.size_map (fs p).length = some (SizeMapEntry.One prev)) :
    (check_index fs p i).1 = (sizeFilter fs (fs p).length paths).find? (contentEq fs p)
      ∧ Inv fs (paths ++ [p]) (check_index fs p i).2 := by
  obtain ⟨hcache, hsize⟩ := hinv
  have hs := hsize (fs p).length
  rw [hbucket] at hs
  simp only [SizeInvEntry] at hs
  obtain ⟨hhead, hall⟩ := hs
  have hprevmem : prev ∈ sizeFilter fs (fs p).length paths := headq_some_mem _ _ hhead
  have hprevlen : (fs prev).length = (fs p).length :=
    mem_sizeFilter_length fs _ paths prev hprevmem
  have hFne : sizeFilter fs (fs p).length paths ≠ [] := by
    intro hF
    rw [hF] at hhead
    simp at hhead
  have e1 := full_hash_fst fs prev i.full_hashes hcache
  have hc1 := full_hash_cacheInv fs prev i.full_hashes hcache
  have e2 := full_hash_fst fs p _ hc1
  have hc2 := full_hash_cacheInv fs p _ hc1
  by_cases hpc : fs p = fs prev
  · -- the second path is a byte-identical duplicate of `prev`
    have hsh : short_hash (fs p) = short_hash (fs prev) := by rw [hpc]
    have hfull : (full_hash fs prev i.full_hashes).1
        = (full_hash fs p (full_hash fs prev i.full_hashes).2).1 := by
      rw [e1, e2, hpc]
    have hres : check_index fs p i = (some prev,
        { i with full_hashes := (full_hash fs p (full_hash fs prev i.full_hashes).2).2 }) := by
      simp only [check_index, hbucket]
      rw [if_pos hsh, if_pos hfull]
    have hfind : (sizeFilter fs (fs p).length paths).find? (contentEq fs p) = some prev := by
      cases hF : sizeFilter fs (fs p).length paths with
      | nil => exact absurd hF hFne
      | cons a rest =>
          rw [hF] at hhead
          simp only [List.head?] at hhead
          rw [Option.some.inj hhead]
          exact List.find?_cons_of_pos _ (by simp [contentEq, hpc])
    refine ⟨by rw [hres, hfind], ?_⟩
    rw [hres]
    refine ⟨hc2, ?_⟩
    intro s'
    by_cases hseq : (fs p).length = s'
    · subst hseq
      simp only
      rw [hbucket]
      simp only [SizeInvEntry]
      rw [sizeFilter_append_self]
      constructor
      · rw [headq_append_left _ _ hFne]
        exact hhead
      · intro q hq
        rcases List.mem_append.mp hq with hq | hq
        · exact hall q hq
        · simp at hq
          rw [hq, hpc]
    · simp only
      exact sizeInvEntry_filter_congr fs paths (paths ++ [p]) s' _
        (sizeFilter_append_ne fs paths p s' hseq) (hsize s')
  · -- content-distinct: the bucket is upgraded to `Multiple` with both paths
    have hfindF : (sizeFilter fs (fs p).length paths).find? (contentEq fs p) = none := by
      rw [List.find?_eq_none]
      intro q hq
      have hq' := hall q hq
      simp only [contentEq, decide_eq_true_eq]
      rw [hq']
      exact fun hh => hpc hh.symm
    have hbuck' : ∀ c', CacheInv fs c' → Inv fs (paths ++ [p])
        ⟨insertA i.size_map (fs p).length
          (SizeMapEntry.Multiple [(short_hash (fs prev), prev), (short_hash (fs p), p)]), c'⟩ := by
      intro c' hc'
      refine ⟨hc', ?_⟩
      intro s'
      by_cases hseq : (fs p).length = s'
      · subst hseq
        simp only
        rw [lookupA_insertA_self]
        simp only [SizeInvEntry]
        rw [sizeFilter_append_self]
        constructor
        · intro e he
          rcases List.mem_cons.mp he with he | he
          · subst he
            refine ⟨rfl, ?_⟩
            refine findq_append_some _ _ _ _ ?_
            cases hF : sizeFilter fs (fs p).length paths with
            | nil => exact absurd hF hFne
            | cons a rest =>
                rw [hF] at hhead
                simp only [List.head?] at hhead
                rw [Option.some.inj hhead]
                exact List.find?_cons_of_pos _ (by simp [contentEq])
          · rw [List.mem_singleton.mp he]
            refine ⟨rfl, ?_⟩
            rw [findq_append_none _ _ _ hfindF]
            exact List.find?_cons_of_pos _ (by simp [contentEq])
        · intro q hq
          rcases List.mem_append.mp hq with hq | hq
          · exact ⟨(short_hash (fs prev), prev), List.mem_cons_self _ _, (hall q hq).symm⟩
          · simp at hq
            subst hq
            exact ⟨(short_hash (fs q), q), by simp, rfl⟩
      · simp only
        rw [lookupA_insertA_ne _ _ _ _ (fun hh => hseq hh.symm)]
        exact sizeInvEntry_filter_congr fs paths (paths ++ [p]) s' _
          (sizeFilter_append_ne fs paths p s' hseq) (hsize s')
    by_cases hsh : short_hash (fs p) = short_hash (fs prev)
    · have hfullne : ¬(full_hash fs prev i.full_hashes).1
          = (full_hash fs p (full_hash fs prev i.full_hashes).2).1 := by
        rw [e1, e2]
        intro hh
        exact hpc ((compute_eq_iff _ _ hprevlen).mp hh).symm
      have hres : check_index fs p i = (none,
          { size_map := insertA i.size_map (fs p).length (SizeMapEntry.Multiple [(short_hash (fs prev), prev), (short_hash (fs p), p)]), full_hashes := (full_hash fs p (full_hash fs prev i.full_hashes).2).2 }) := by
        simp only [check_index, hbucket]
        rw [if_pos hsh, if_neg hfullne]
      refine ⟨by rw [hres, hfindF], ?_⟩
      rw [hres]
      exact hbuck' _ hc2
    · have hres : check_index fs p i = (none,
          { i with size_map := insertA i.size_map (fs p).length (SizeMapEntry.Multiple [(short_hash (fs prev), prev), (short_hash (fs p), p)]) }) := by
        simp only [check_index, hbucket]
        rw [if_neg hsh]
      refine ⟨by rw [hres, hfindF], ?_⟩
      rw [hres]
      exact hbuck' _ hcache

theorem check_index_step_multiple (fs : PathBuf → List Nat) (paths : List PathBuf)
    (p : PathBuf) (m : List (Hash × PathBuf)) (i : Index) (hinv : Inv fs paths i)
    (hbucket : lookupA i.size_map (fs p).length = some (SizeMapEntry.Multiple m)) :
    (check_index fs p i).1 = (sizeFilter fs (fs p).length paths).find? (contentEq fs p)
      ∧ Inv fs (paths ++ [p]) (check_index fs p i).2 := by
  obtain ⟨hcache, hsize⟩ := hinv
  have hs := hsize (fs p).length
  rw [hbucket] at hs
  simp only [SizeInvEntry] at hs
  obtain ⟨hA, hB⟩ := hs
  have hfd := findDup_spec fs p (sliceA m (short_hash (fs p))) i.full_hashes hcache
  have hcandF : ∀ q ∈ sliceA m (short_hash (fs p)), q ∈ sizeFilter fs (fs p).length paths := by
    intro q hq
    have hm := (mem_sliceA m (short_hash (fs p)) q).mp hq
    exact List.mem_of_find?_eq_some (hA _ hm).2
  have hpredIff : ∀ q ∈ sliceA m (short_hash (fs p)),
      ((fun b => decide (compute_full_hash (fs b) = compute_full_hash (fs p))) q = true
        ↔ fs q = fs p) := by
    intro q hq
    have hlen : (fs q).length = (fs p).length :=
      mem_sizeFilter_length fs _ paths q (hcandF q hq)
    simp only [decide_eq_true_eq]
    exact compute_eq_iff _ _ hlen
  cases hfind : (sizeFilter fs (fs p).length paths).find? (contentEq fs p) with
  | some qstar =>
      have hqc : fs qstar = fs p := by
        have := List.find?_some hfind
        simpa [contentEq] using this
      have hqF : qstar ∈ sizeFilter fs (fs p).length paths :=
        List.mem_of_find?_eq_some hfind
      obtain ⟨e, heM, heC⟩ := hB qstar hqF
      have heP : fs e.2 = fs p := heC.trans hqc
      have heH : e.1 = short_hash (fs p) := by rw [(hA e heM).1, heP]
      have heMem : (short_hash (fs p), e.2) ∈ m := by
        have he : e = (short_hash (fs p), e.2) := by
          obtain ⟨e1, e2⟩ := e
          simp only at heH
          rw [heH]
        rw [← he]
        exact heM
      have heCand : e.2 ∈ sliceA m (short_hash (fs p)) :=
        (mem_sliceA m (short_hash (fs p)) e.2).mpr heMem
      have heq2 : e.2 = qstar := by
        have hfe := (hA e heM).2
        rw [contentEq_congr fs e.2 p heP] at hfe
        rw [hfind] at hfe
        exact (Option.some.inj hfe).symm
      have hpq : (fun b => decide (compute_full_hash (fs b) = compute_full_hash (fs p))) qstar
          = true := by
        simp [hqc]
      have huniq : ∀ b ∈ sliceA m (short_hash (fs p)),
          (fun b => decide (compute_full_hash (fs b) = compute_full_hash (fs p))) b = true
            → b = qstar := by
        intro b hb hpb
        have hbc : fs b = fs p := (hpredIff b hb).mp hpb
        have hbm := (mem_sliceA m (short_hash (fs p)) b).mp hb
        have hbf := (hA _ hbm).2
        rw [contentEq_congr fs b p hbc] at hbf
        rw [hfind] at hbf
        exact (Option.some.inj hbf).symm
      have hcandfind : (sliceA m (short_hash (fs p))).find?
          (fun b => decide (compute_full_hash (fs b) = compute_full_hash (fs p)))
            = some qstar :=
        findq_unique _ _ qstar (heq2 ▸ heCand) hpq huniq
      have hr1 : (findDup fs p (sliceA m (short_hash (fs p))) i.full_hashes).1 = some qstar :=
        hfd.1.trans hcandfind
      have hres : check_index fs p i = (some qstar,
          { i with full_hashes := (findDup fs p (sliceA m (short_hash (fs p))) i.full_hashes).2 }) := by
        simp only [check_index, hbucket, hr1]
      refine ⟨by rw [hres], ?_⟩
      rw [hres]
      refine ⟨hfd.2, ?_⟩
      intro s'
      by_cases hseq : (fs p).length = s'
      · subst hseq
        simp only
        rw [hbucket]
        simp only [SizeInvEntry]
        rw [sizeFilter_append_self]
        constructor
        · intro e' he'
          exact ⟨(hA e' he').1, findq_append_some _ _ _ _ (hA e' he').2⟩
        · intro q hq
          rcases List.mem_append.mp hq with hq | hq
          · exact hB q hq
          · simp at hq
            subst hq
            exact ⟨e, heM, heP⟩
      · simp only
        exact sizeInvEntry_filter_congr fs paths (paths ++ [p]) s' _
          (sizeFilter_append_ne fs paths p s' hseq) (hsize s')
  | none =>
      have hnone : ∀ q ∈ sizeFilter fs (fs p).length paths, fs q ≠ fs p := by
        intro q hq
        have := List.find?_eq_none.mp hfind q hq
        simpa [contentEq] using this
      have hcandfind : (sliceA m (short_hash (fs p))).find?
          (fun b => decide (compute_full_hash (fs b) = compute_full_hash (fs p))) = none := by
        rw [List.find?_eq_none]
        intro b hb
        intro hpb
        exact hnone b (hcandF b hb) ((hpredIff b hb).mp hpb)
      have hr1 : (findDup fs p (sliceA m (short_hash (fs p))) i.full_hashes).1 = none :=
        hfd.1.trans hcandfind
      have hres : check_index fs p i = (none,
          { size_map := insertA i.size_map (fs p).length (SizeMapEntry.Multiple (m ++ [(short_hash (fs p), p)])), full_hashes := (findDup fs p (sliceA m (short_hash (fs p))) i.full_hashes).2 }) := by
        simp only [check_index, hbucket, hr1]
      refine ⟨by rw [hres], ?_⟩
      rw [hres]
      refine ⟨hfd.2, ?_⟩
      intro s'
      by_cases hseq : (fs p).length = s'
      · subst hseq
        simp only
        rw [lookupA_insertA_self]
        simp only [SizeInvEntry]
        rw [sizeFilter_append_self]
        constructor
        · intro e' he'
          rcases List.mem_append.mp he' with he' | he'
          · exact ⟨(hA e' he').1, findq_append_some _ _ _ _ (hA e' he').2⟩
          · rw [List.mem_singleton.mp he']
            refine ⟨rfl, ?_⟩
            rw [findq_append_none _ _ _ hfind]
            exact List.find?_cons_of_pos _ (by simp [contentEq])
        · intro q hq
          rcases List.mem_append.mp hq with hq | hq
          · obtain ⟨e', he', hec⟩ := hB q hq
            exact ⟨e', List.mem_append_left _ he', hec⟩
          · simp at hq
            subst hq
            exact ⟨(short_hash (fs q), q), List.mem_append_right _ (by simp), rfl⟩
      · simp only
        rw [lookupA_insertA_ne _ _ _ _ (fun hh => hseq hh.symm)]
        exact sizeInvEntry_filter_congr fs paths (paths ++ [p]) s' _
          (sizeFilter_append_ne fs paths p s' hseq) (hsize s')

/-- One registration step: starting from any index reachable by registering
`paths`, `check_index` returns the first previously-registered path of the
same size with identical content, and re-establishes the invariant. -/
theorem check_index_step (fs : PathBuf → List Nat) (paths : List PathBuf) (p : PathBuf)
    (i : Index) (hinv : Inv fs paths i) :
    (check_index fs p i).1 = (sizeFilter fs (fs p).length paths).find? (contentEq fs p)
      ∧ Inv fs (paths ++ [p]) (check_index fs p i).2 := by
  cases hbucket : lookupA i.size_map (fs p).length with
  | none => exact check_index_step_vacant fs paths p i hinv hbucket
  | some e =>
      cases e with
      | One prev => exact check_index_step_one fs paths p prev i hinv hbucket
      | Multiple m => exact check_index_step_multiple fs paths p m i hinv hbucket

/-- The index built by `runIndex` satisfies the invariant. -/
theorem runIndex_inv (fs : PathBuf → List Nat) (paths : List PathBuf) :
    Inv fs paths (runIndex fs paths) := by
  have hgen : ∀ (rest processed : List PathBuf) (i : Index), Inv fs processed i →
      Inv fs (processed ++ rest) (rest.foldl (fun j q => (check_index fs q j).2) i) := by
    intro rest
    induction rest with
    | nil => intro processed i h; simpa using h
    | cons q rest ih =>
        intro processed i h
        have hstep := (check_index_step fs processed q i h).2
        have := ih (processed ++ [q]) _ hstep
        simpa [List.append_assoc] using this
  have hbase : Inv fs [] emptyIndex := by
    refine ⟨cacheInv_nil fs, ?_⟩
    intro s
    simp only [emptyIndex, lookupA, SizeInvEntry, sizeFilter, List.filter_nil]
  have := hgen paths [] emptyIndex hbase
  simpa [runIndex] using this

/-! ## Path-resolver lemmas -/

theorem walkLoop_eq : ∀ b t : List Component,
    walkLoop b t = (b.drop (commonPrefixLen b t + 1), t.drop (commonPrefixLen b t)) := by
  intro b
  induction b with
  | nil => intro t; simp [walkLoop, commonPrefixLen]
  | cons x bs ih =>
      intro t
      cases t with
      | nil => simp [walkLoop, commonPrefixLen]
      | cons y ts =>
          by_cases hxy : x = y
          · simp only [walkLoop, if_pos hxy, commonPrefixLen]
            rw [ih ts]
            simp [hxy]
          · simp [walkLoop, commonPrefixLen, hxy]

theorem commonPrefixLen_le_left : ∀ b t : List Component, commonPrefixLen b t ≤ b.length := by
  intro b
  induction b with
  | nil => intro t; cases t <;> simp [commonPrefixLen]
  | cons x bs ih =>
      intro t
      cases t with
      | nil => simp [commonPrefixLen]
      | cons y ts =>
          by_cases hxy : x = y
          · simp only [commonPrefixLen, if_pos hxy, List.length_cons]
            exact Nat.succ_le_succ (ih ts)
          · simp [commonPrefixLen, hxy]

theorem take_commonPrefixLen : ∀ b t : List Component,
    b.take (commonPrefixLen b t) = t.take (commonPrefixLen b t) := by
  intro b
  induction b with
  | nil => intro t; cases t <;> simp [commonPrefixLen]
  | cons x bs ih =>
      intro t
      cases t with
      | nil => simp [commonPrefixLen]
      | cons y ts =>
          by_cases hxy : x = y
          · simp only [commonPrefixLen, if_pos hxy, List.take_succ_cons]
            rw [hxy, ih ts]
          · simp [commonPrefixLen, hxy]

theorem all_isNormal_drop (l : List Component) (k : Nat) (h : l.all isNormalComp = true) :
    (l.drop k).all isNormalComp = true := by
  rw [List.all_eq_true] at h ⊢
  intro x hx
  exact h x (List.mem_of_mem_drop hx)

/-- On a canonical absolute base, `relative_path` never panics, and emits
one `..` for each base component after the first divergence (one fewer
than the components beyond the common prefix), then the target's residual
components. -/
theorem relative_path_canonical_eq (b t : List Component) (hb : isAbsCanonical b = true) :
    relative_path b t =
      some (List.replicate (b.length - (commonPrefixLen b t + 1)) Component.parentDir
        ++ t.drop (commonPrefixLen b t)) := by
  obtain ⟨rest, hrest, hbeq⟩ : ∃ rest, rest.all isNormalComp = true
      ∧ b = Component.rootDir :: rest := by
    cases b with
    | nil => simp [isAbsCanonical] at hb
    | cons c cs =>
        cases c with
        | rootDir => exact ⟨cs, by simpa [isAbsCanonical] using hb, rfl⟩
        | curDir => simp [isAbsCanonical] at hb
        | parentDir => simp [isAbsCanonical] at hb
        | normal s => simp [isAbsCanonical] at hb
  have hdropN : (b.drop (commonPrefixLen b t + 1)).all isNormalComp = true := by
    rw [hbeq, List.drop_succ_cons]
    exact all_isNormal_drop rest _ hrest
  unfold relative_path
  rw [walkLoop_eq]
  simp only [hdropN, if_pos]
  rw [List.map_const']
  simp

/-- Iterated `..` resolution: each leading `..` drops the last component of
the accumulated directory. -/
theorem resolve_replicate_parent : ∀ (m : Nat) (acc rest : List Component),
    resolve acc (List.replicate m Component.parentDir ++ rest)
      = resolve (acc.take (acc.length - m)) rest := by
  intro m
  induction m with
  | zero => intro acc rest; simp
  | succ m ih =>
      intro acc rest
      rw [List.replicate_succ, List.cons_append]
      have hstep : resolve acc (Component.parentDir :: (List.replicate m Component.parentDir ++ rest))
          = resolve acc.dropLast (List.replicate m Component.parentDir ++ rest) := rfl
      rw [hstep, ih]
      congr 1
      rw [List.length_dropLast, List.dropLast_eq_take, List.take_take]
      congr 1
      omega

theorem resolve_all_normal : ∀ (rest acc : List Component), rest.all isNormalComp = true →
    resolve acc rest = acc ++ rest := by
  intro rest
  induction rest with
  | nil => intro acc _; simp [resolve]
  | cons c cs ih =>
      intro acc h
      simp only [List.all_cons, Bool.and_eq_true] at h
      cases c with
      | normal s =>
          have hstep : resolve acc (Component.normal s :: cs)
              = resolve (acc ++ [Component.normal s]) cs := rfl
          rw [hstep, ih _ h.2]
          simp
      | rootDir => simp [isNormalComp] at h
      | curDir => simp [isNormalComp] at h
      | parentDir => simp [isNormalComp] at h

/-- Round trip of `relative_path`: resolved from the parent directory of a
canonical base that is not a component-prefix of the canonical target, the
computed relative path reaches the target. -/
theorem relative_path_resolve (b t : List Component) (hb : isAbsCanonical b = true)
    (ht : isAbsCanonical t = true) (hpre : t.take b.length ≠ b) (r : List Component)
    (hr : relative_path b t = some r) : resolve b.dropLast r = t := by
  obtain ⟨bs, hbs, hbeq⟩ : ∃ bs, bs.all isNormalComp = true
      ∧ b = Component.rootDir :: bs := by
    cases b with
    | nil => simp [isAbsCanonical] at hb
    | cons c cs =>
        cases c with
        | rootDir => exact ⟨cs, by simpa [isAbsCanonical] using hb, rfl⟩
        | curDir => simp [isAbsCanonical] at hb
        | parentDir => simp [isAbsCanonical] at hb
        | normal s => simp [isAbsCanonical] at hb
  obtain ⟨ts, hts, hteq⟩ : ∃ ts, ts.all isNormalComp = true
      ∧ t = Component.rootDir :: ts := by
    cases t with
    | nil => simp [isAbsCanonical] at ht
    | cons c cs =>
        cases c with
        | rootDir => exact ⟨cs, by simpa [isAbsCanonical] using ht, rfl⟩
        | curDir => simp [isAbsCanonical] at ht
        | parentDir => simp [isAbsCanonical] at ht
        | normal s => simp [isAbsCanonical] at ht
  have hk1 : 1 ≤ commonPrefixLen b t := by
    rw [hbeq, hteq]
    simp [commonPrefixLen]
  have hkle : commonPrefixLen b t ≤ b.length := commonPrefixLen_le_left b t
  have hklt : commonPrefixLen b t < b.length := by
    rcases Nat.lt_or_ge (commonPrefixLen b t) b.length with h | h
    · exact h
    · exfalso
      have hkeq : commonPrefixLen b t = b.length := Nat.le_antisymm hkle h
      have := take_commonPrefixLen b t
      rw [hkeq, List.take_length] at this
      exact hpre this.symm
  rw [relative_path_canonical_eq b t hb] at hr
  have hrval := Option.some.inj hr
  rw [← hrval, resolve_replicate_parent]
  rw [List.length_dropLast, List.dropLast_eq_take, List.take_take]
  have hmin : (b.length - 1 - (b.length - (commonPrefixLen b t + 1))) ⊓ (b.length - 1)
      = commonPrefixLen b t := by omega
  rw [hmin, take_commonPrefixLen b t]
  have hdropN : (t.drop (commonPrefixLen b t)).all isNormalComp = true := by
    obtain ⟨k, hk⟩ : ∃ k, commonPrefixLen b t = k + 1 :=
      ⟨commonPrefixLen b t - 1, by omega⟩
    rw [hk, hteq, List.drop_succ_cons]
    exact all_isNormal_drop ts k hts
  rw [resolve_all_normal _ _ hdropN, List.take_append_drop]

/-- The paths held in a size bucket. -/
def entryPaths : SizeMapEntry → List PathBuf
  | SizeMapEntry.One p => [p]
  | SizeMapEntry.Multiple m => m.map (fun e => e.2)

/-- Frame property: `check_index` writes no size bucket other than the one keyed by the
registered path's size. -/
theorem check_index_frame (fs : PathBuf → List Nat) (p : PathBuf) (i : Index) (s : Nat)
    (hs : s ≠ (fs p).length) :
    lookupA ((check_index fs p i).2).size_map s = lookupA i.size_map s := by
  cases hbucket : lookupA i.size_map (fs p).length with
  | none =>
      simp only [check_index, hbucket]
      exact lookupA_insertA_ne _ _ _ _ hs
  | some e =>
      cases e with
      | One prev =>
          by_cases hsh : short_hash (fs p) = short_hash (fs prev)
          · by_cases hfull : (full_hash fs prev i.full_hashes).1
                = (full_hash fs p (full_hash fs prev i.full_hashes).2).1
            · simp only [check_index, hbucket]
              rw [if_pos hsh, if_pos hfull]
            · simp only [check_index, hbucket]
              rw [if_pos hsh, if_neg hfull]
              exact lookupA_insertA_ne _ _ _ _ hs
          · simp only [check_index, hbucket]
            rw [if_neg hsh]
            exact lookupA_insertA_ne _ _ _ _ hs
      | Multiple m =>
          cases hr : (findDup fs p (sliceA m (short_hash (fs p))) i.full_hashes).1 with
          | some prev => simp only [check_index, hbucket, hr]
          | none =>
              simp only [check_index, hbucket, hr]
              exact lookupA_insertA_ne _ _ _ _ hs

/-! ## The claims -/

/-- C1: over any sequence of registered entries, `check_index` returns
`none` exactly when the new path's content was not seen before, and
otherwise `some r` where `r` is the first path in traversal order with
byte-identical content (hence the representative is a pure function of
the preceding sequence — never reassigned — and a first-seen path, absent
from the sequence, is never reported as a duplicate). -/
theorem check_index_first_match (fs : PathBuf → List Nat) (paths : List PathBuf)
    (p : PathBuf) :
    (check_index fs p (runIndex fs paths)).1 = paths.find? (contentEq fs p) := by
  have h := (check_index_step fs paths p (runIndex fs paths) (runIndex_inv fs paths)).1
  rw [h, findq_sizeFilter]

/-- C2 counterexample: for a file one byte longer than the 64 KiB buffer,
the final hashed buffer's unread tail holds leftover bytes of the previous
chunk, not zeros, so the hashed message differs from the zero-padded
message the spec claims. -/
theorem compute_full_hash_zero_pad_cex :
    compute_full_hash (List.replicate HASH_BUFLEN 1 ++ [2])
      ≠ zeroPadFullMsg (List.replicate HASH_BUFLEN 1 ++ [2]) := by
  have hlen : (List.replicate HASH_BUFLEN (1:Nat) ++ [2]).length = HASH_BUFLEN + 1 := by
    rw [List.length_append, List.length_replicate]
    rfl
  have hne : (List.replicate HASH_BUFLEN (1:Nat) ++ [2]) ≠ [] := by simp
  have htake : (List.replicate HASH_BUFLEN (1:Nat) ++ [2]).take HASH_BUFLEN
      = List.replicate HASH_BUFLEN 1 := List.take_left' (by simp)
  have hdrop2 : (List.replicate HASH_BUFLEN (1:Nat) ++ [2]).drop HASH_BUFLEN = [2] :=
    List.drop_left' (by simp)
  have hLHS : compute_full_hash (List.replicate HASH_BUFLEN 1 ++ [2])
      = List.replicate HASH_BUFLEN 1 ++ ([2] ++ List.replicate (HASH_BUFLEN - 1) 1) := by
    unfold compute_full_hash
    rw [hashChunksGo_ne_nil _ _ hne, htake]
    rw [List.length_replicate, List.drop_replicate, Nat.sub_self, List.replicate_zero,
      List.append_nil, hdrop2]
    rw [hashChunksGo_ne_nil _ [2] (by simp)]
    have ht2 : ([2]:List Nat).take HASH_BUFLEN = [2] :=
      List.take_of_length_le (by simp [HASH_BUFLEN])
    have hd2 : ([2]:List Nat).drop HASH_BUFLEN = [] :=
      List.drop_eq_nil_of_le (by simp [HASH_BUFLEN])
    rw [ht2, hd2, hashChunksGo_nil, List.append_nil]
    simp [List.drop_replicate]
  have hRHS : zeroPadFullMsg (List.replicate HASH_BUFLEN 1 ++ [2])
      = List.replicate HASH_BUFLEN 1 ++ ([2] ++ List.replicate (HASH_BUFLEN - 1) 0) := by
    unfold zeroPadFullMsg
    rw [hlen]
    have hmod : (HASH_BUFLEN + 1) % HASH_BUFLEN = 1 := by decide
    rw [hmod, if_neg Nat.one_ne_zero, List.append_assoc]
  rw [hLHS, hRHS]
  intro h
  have h1 := List.append_cancel_left h
  have h2 := List.append_cancel_left h1
  have h3 := congrArg List.head? h2
  have h4 : (List.replicate (HASH_BUFLEN - 1) (1:Nat)).head? = some 1 := by
    rw [show HASH_BUFLEN - 1 = 65534 + 1 from rfl, List.replicate_succ, List.head?_cons]
  have h5 : (List.replicate (HASH_BUFLEN - 1) (0:Nat)).head? = some 0 := by
    rw [show HASH_BUFLEN - 1 = 65534 + 1 from rfl, List.replicate_succ, List.head?_cons]
  rw [h4, h5] at h3
  exact Nat.one_ne_zero (Option.some.inj h3)

/-- C2 amended: the hashed message is the zero-padded content exactly as
claimed whenever the file fits in a single 64 KiB buffer or its size is a
multiple of 64 KiB; (beyond that, the final partial chunk is padded with
the previous chunk's bytes, as the counterexample shows). -/
theorem compute_full_hash_zero_pad_amended (c : List Nat)
    (h : c.length ≤ HASH_BUFLEN ∨ c.length % HASH_BUFLEN = 0) :
    compute_full_hash c = zeroPadFullMsg c := by
  by_cases hmod : c.length % HASH_BUFLEN = 0
  · have hdvd : HASH_BUFLEN ∣ c.length := Nat.dvd_of_mod_eq_zero hmod
    unfold compute_full_hash zeroPadFullMsg
    rw [if_pos hmod]
    exact hashChunksGo_of_dvd c.length c _ (Nat.le_refl _) (by simp) hdvd
  · have hle : c.length ≤ HASH_BUFLEN := by
      rcases h with h | h
      · exact h
      · exact absurd h hmod
    have hpos : 0 < c.length := by
      rcases Nat.eq_zero_or_pos c.length with h0 | h0
      · rw [h0] at hmod
        simp at hmod
      · exact h0
    have hlt : c.length < HASH_BUFLEN := by
      rcases Nat.lt_or_ge c.length HASH_BUFLEN with h0 | h0
      · exact h0
      · exfalso
        have : c.length = HASH_BUFLEN := Nat.le_antisymm hle h0
        rw [this] at hmod
        simp at hmod
    rw [compute_full_hash_small c hpos hle]
    unfold zeroPadFullMsg
    rw [if_neg hmod, Nat.mod_eq_of_lt hlt]

theorem compute_full_hash_zero_pad_amended_witness :
    compute_full_hash [5, 6, 7] = zeroPadFullMsg [5, 6, 7] :=
  compute_full_hash_zero_pad_amended [5, 6, 7] (Or.inl (by norm_num [HASH_BUFLEN]))

/-- C3 counterexample: on the spec's own example the walk consumes the
first mismatching base component, so only two `..` steps are emitted, not
one per base component beyond the common prefix (which would be three). -/
theorem relative_path_claimed_cex :
    relative_path
        [Component.rootDir, Component.normal "a", Component.normal "b", Component.normal "c",
          Component.normal "file1"]
        [Component.rootDir, Component.normal "a", Component.normal "x", Component.normal "file2"]
      ≠ some (relative_path_claimed
        [Component.rootDir, Component.normal "a", Component.normal "b", Component.normal "c",
          Component.normal "file1"]
        [Component.rootDir, Component.normal "a", Component.normal "x", Component.normal "file2"]) := by
  decide

/-- C3 amended: on a canonical absolute base, the result is one `..` per
base component beyond the common prefix excluding the first such (the one
consumed by the lockstep walk), followed by the target's components beyond
the prefix verbatim. -/
theorem relative_path_components_amended (b t : List Component)
    (hb : isAbsCanonical b = true) :
    relative_path b t =
      some (List.replicate (b.length - (commonPrefixLen b t + 1)) Component.parentDir
        ++ t.drop (commonPrefixLen b t)) :=
  relative_path_canonical_eq b t hb

theorem relative_path_components_amended_witness :
    relative_path [Component.rootDir, Component.normal "a", Component.normal "b"]
        [Component.rootDir, Component.normal "c"]
      = some (List.replicate
          ([Component.rootDir, Component.normal "a", Component.normal "b"].length
            - (commonPrefixLen [Component.rootDir, Component.normal "a", Component.normal "b"]
                [Component.rootDir, Component.normal "c"] + 1)) Component.parentDir
        ++ [Component.rootDir, Component.normal "c"].drop
            (commonPrefixLen [Component.rootDir, Component.normal "a", Component.normal "b"]
              [Component.rootDir, Component.normal "c"])) :=
  relative_path_components_amended
    [Component.rootDir, Component.normal "a", Component.normal "b"]
    [Component.rootDir, Component.normal "c"] (by decide)

/-- C4 counterexample: when the canonical base is a component-prefix of
the canonical target, the computed relative path resolved from the base's
parent does not reach the target. -/
theorem relative_path_roundtrip_cex :
    relative_path [Component.rootDir, Component.normal "f"]
        [Component.rootDir, Component.normal "f", Component.normal "g"]
      = some [Component.normal "g"]
    ∧ resolve ([Component.rootDir, Component.normal "f"].dropLast) [Component.normal "g"]
      ≠ [Component.rootDir, Component.normal "f", Component.normal "g"] := by
  constructor
  · decide
  · decide

/-- C4 amended: the spec's concrete example computes `../../x/file2`, and
the round trip (resolving the result from the base's parent reaches the
target) holds for canonical absolute base and target whenever the base's
components are not a prefix of the target's — which is always the case for
two distinct regular files. -/
theorem relative_path_roundtrip_amended :
    relative_path
        [Component.rootDir, Component.normal "a", Component.normal "b", Component.normal "c",
          Component.normal "file1"]
        [Component.rootDir, Component.normal "a", Component.normal "x", Component.normal "file2"]
      = some [Component.parentDir, Component.parentDir, Component.normal "x",
          Component.normal "file2"]
    ∧ ∀ b t : List Component, isAbsCanonical b = true → isAbsCanonical t = true →
        t.take b.length ≠ b → ∀ r, relative_path b t = some r → resolve b.dropLast r = t := by
  constructor
  · decide
  · intro b t hb ht hpre r hr
    exact relative_path_resolve b t hb ht hpre r hr

theorem relative_path_roundtrip_amended_witness :
    resolve ([Component.rootDir, Component.normal "a"].dropLast) [Component.normal "q"]
      = [Component.rootDir, Component.normal "q"] :=
  relative_path_roundtrip_amended.2 [Component.rootDir, Component.normal "a"]
    [Component.rootDir, Component.normal "q"] (by decide) (by decide) (by decide)
    [Component.normal "q"] (by decide)

/-- C5: from a `Single(prev)` bucket, registering a second path of the same
size keeps the bucket `Single(prev)` and returns `some prev` when the new
content is identical (the duplicate is not added); only a content-distinct
second path upgrades the bucket to `Grouped`, seeded with both paths under
their partial digests, returning `none`. -/
theorem check_index_single_bucket (fs : PathBuf → List Nat) (paths : List PathBuf)
    (p prev : PathBuf)
    (hbucket : lookupA (runIndex fs paths).size_map (fs p).length
      = some (SizeMapEntry.One prev)) :
    (fs p = fs prev →
        (check_index fs p (runIndex fs paths)).1 = some prev
        ∧ lookupA ((check_index fs p (runIndex fs paths)).2).size_map (fs p).length
            = some (SizeMapEntry.One prev))
    ∧ (fs p ≠ fs prev →
        (check_index fs p (runIndex fs paths)).1 = none
        ∧ lookupA ((check_index fs p (runIndex fs paths)).2).size_map (fs p).length
            = some (SizeMapEntry.Multiple
                [(short_hash (fs prev), prev), (short_hash (fs p), p)])) := by
  obtain ⟨hcache, hsize⟩ := runIndex_inv fs paths
  have hs := hsize (fs p).length
  rw [hbucket] at hs
  simp only [SizeInvEntry] at hs
  obtain ⟨hhead, hall⟩ := hs
  have hprevlen : (fs prev).length = (fs p).length :=
    mem_sizeFilter_length fs _ paths prev (headq_some_mem _ _ hhead)
  have e1 := full_hash_fst fs prev _ hcache
  have hc1 := full_hash_cacheInv fs prev _ hcache
  have e2 := full_hash_fst fs p _ hc1
  constructor
  · intro hpc
    have hsh : short_hash (fs p) = short_hash (fs prev) := by rw [hpc]
    have hfull : (full_hash fs prev (runIndex fs paths).full_hashes).1
        = (full_hash fs p (full_hash fs prev (runIndex fs paths).full_hashes).2).1 := by
      rw [e1, e2, hpc]
    have hres : check_index fs p (runIndex fs paths) = (some prev,
        { runIndex fs paths with full_hashes :=
            (full_hash fs p (full_hash fs prev (runIndex fs paths).full_hashes).2).2 }) := by
      simp only [check_index, hbucket]
      rw [if_pos hsh, if_pos hfull]
    rw [hres]
    exact ⟨rfl, hbucket⟩
  · intro hpc
    by_cases hsh : short_hash (fs p) = short_hash (fs prev)
    · have hfullne : ¬(full_hash fs prev (runIndex fs paths).full_hashes).1
          = (full_hash fs p (full_hash fs prev (runIndex fs paths).full_hashes).2).1 := by
        rw [e1, e2]
        intro hh
        exact hpc ((compute_eq_iff _ _ hprevlen).mp hh).symm
      have hres : check_index fs p (runIndex fs paths) = (none,
          { size_map := insertA (runIndex fs paths).size_map (fs p).length (SizeMapEntry.Multiple [(short_hash (fs prev), prev), (short_hash (fs p), p)]), full_hashes := (full_hash fs p (full_hash fs prev (runIndex fs paths).full_hashes).2).2 }) := by
        simp only [check_index, hbucket]
        rw [if_pos hsh, if_neg hfullne]
      rw [hres]
      exact ⟨rfl, lookupA_insertA_self _ _ _⟩
    · have hres : check_index fs p (runIndex fs paths) = (none,
          { runIndex fs paths with size_map := insertA (runIndex fs paths).size_map (fs p).length (SizeMapEntry.Multiple [(short_hash (fs prev), prev), (short_hash (fs p), p)]) }) := by
        simp only [check_index, hbucket]
        rw [if_neg hsh]
      rw [hres]
      exact ⟨rfl, lookupA_insertA_self _ _ _⟩

theorem check_index_single_bucket_witness :
    (check_index (fun q => if q = 0 then [1] else [2]) 1
        (runIndex (fun q => if q = 0 then [1] else [2]) [0])).1 = none :=
  ((check_index_single_bucket (fun q => if q = 0 then [1] else [2]) [0] 1 0
    (by decide)).2 (by decide)).1

/-- C6 counterexample: with `--min-size 0`, a file of size `0` is not
included (`size > min_size` is strict), so two empty files yield no
duplicate action — not one, as the claim states — and are not even
counted as processed files. -/
theorem empty_files_excluded_cex :
    (mainLoop (fun _ => ([] : List Nat)) 0 [0, 1]).1.num_actions = 0
    ∧ (mainLoop (fun _ => ([] : List Nat)) 0 [0, 1]).1.num_files = 0 := by
  exact ⟨rfl, rfl⟩

/-- C6 amended: with `--min-size 0`, a file of size `0` is excluded from
indexing (only files with size strictly above the threshold are indexed),
so two empty files are never compared, produce no duplicate action and
leave the index empty. -/
theorem empty_files_excluded (fs : PathBuf → List Nat) (p₁ p₂ : PathBuf)
    (h₁ : fs p₁ = []) (h₂ : fs p₂ = []) :
    mainLoop fs 0 [p₁, p₂] = (⟨0, 0, 0⟩, emptyIndex) := by
  simp [mainLoop, mainStep, h₁, h₂]

theorem empty_files_excluded_witness :
    mainLoop (fun _ => ([] : List Nat)) 0 [0, 1] = (⟨0, 0, 0⟩, emptyIndex) :=
  empty_files_excluded (fun _ => ([] : List Nat)) 0 1 rfl rfl

/-- C7: the memoized `full_hash` returns the cached digest unchanged when
present (no recomputation, cache untouched); otherwise it computes the
full digest, appends it under the path and returns it; afterwards the
path's digest is always in the cache, so it is computed at most once per
run however many comparisons involve the path. -/
theorem full_hash_cached_spec (fs : PathBuf → List Nat) (path : PathBuf)
    (cache : List (PathBuf × Hash)) :
    (∀ h, lookupA cache path = some h → full_hash fs path cache = (h, cache))
    ∧ (lookupA cache path = none →
        full_hash fs path cache
          = (compute_full_hash (fs path), cache ++ [(path, compute_full_hash (fs path))]))
    ∧ lookupA (full_hash fs path cache).2 path = some (full_hash fs path cache).1 := by
  refine ⟨?_, ?_, ?_⟩
  · intro h hl
    simp [full_hash, hl]
  · intro hl
    simp [full_hash, hl]
  · cases hl : lookupA cache path with
    | some h => simp [full_hash, hl]
    | none =>
        simp only [full_hash, hl]
        rw [lookupA_append_none _ _ _ hl]
        simp [lookupA]

theorem full_hash_cached_spec_witness :
    full_hash (fun _ => []) 0 [(0, [9])] = ([9], [(0, [9])]) :=
  (full_hash_cached_spec (fun _ => []) 0 [(0, [9])]).1 [9] rfl

/-- C8: when the new path's partial digest differs from that of every
candidate it is checked against (the `Single` occupant, or — vacuously —
the empty partial-digest slice of a `Grouped` bucket), no full digest is
computed and the full-digest cache is left completely unchanged. -/
theorem check_index_short_circuit (fs : PathBuf → List Nat) (p : PathBuf) (i : Index)
    (h : match lookupA i.size_map (fs p).length with
      | none => True
      | some (SizeMapEntry.One prev) => short_hash (fs p) ≠ short_hash (fs prev)
      | some (SizeMapEntry.Multiple m) => sliceA m (short_hash (fs p)) = []) :
    ((check_index fs p i).2).full_hashes = i.full_hashes := by
  cases hbucket : lookupA i.size_map (fs p).length with
  | none => simp only [check_index, hbucket]
  | some e =>
      cases e with
      | One prev =>
          rw [hbucket] at h
          have hsh : ¬short_hash (fs p) = short_hash (fs prev) := h
          simp only [check_index, hbucket]
          rw [if_neg hsh]
      | Multiple m =>
          rw [hbucket] at h
          have hslice : sliceA m (short_hash (fs p)) = [] := h
          have hfd : findDup fs p (sliceA m (short_hash (fs p))) i.full_hashes
              = (none, i.full_hashes) := by
            rw [hslice]
            rfl
          simp only [check_index, hbucket, hfd]

theorem check_index_short_circuit_witness :
    ((check_index (fun _ => [1]) 0 emptyIndex).2).full_hashes = emptyIndex.full_hashes :=
  check_index_short_circuit (fun _ => [1]) 0 emptyIndex trivial

/-- C9: for canonical absolute paths (root followed by plain named
segments), every residual base component after the lockstep walk is a
plain named segment, so `relative_path` never hits its `panic!` — it
always returns a value. -/
theorem relative_path_no_panic (b t : List Component) (hb : isAbsCanonical b = true)
    (ht : isAbsCanonical t = true) : (relative_path b t).isSome = true := by
  rw [relative_path_canonical_eq b t hb]
  rfl

theorem relative_path_no_panic_witness :
    (relative_path [Component.rootDir, Component.normal "u"]
      [Component.rootDir, Component.normal "v"]).isSome = true :=
  relative_path_no_panic [Component.rootDir, Component.normal "u"]
    [Component.rootDir, Component.normal "v"] (by decide) (by decide)

/-- C10: `check_index` writes no size bucket other than the one keyed by
the registered path's size, and every path stored in a bucket has exactly
that bucket's size — so all candidates a new path is compared against
(drawn from its own bucket) have its own byte size, and paths in distinct
buckets are never compared. -/
theorem check_index_size_bucketing (fs : PathBuf → List Nat) (paths : List PathBuf)
    (p : PathBuf) (s : Nat) :
    (s ≠ (fs p).length →
      lookupA ((check_index fs p (runIndex fs paths)).2).size_map s
        = lookupA (runIndex fs paths).size_map s)
    ∧ ∀ e, lookupA (runIndex fs paths).size_map s = some e →
        ∀ q ∈ entryPaths e, (fs q).length = s := by
  constructor
  · intro hs
    exact check_index_frame fs p (runIndex fs paths) s hs
  · intro e he q hq
    have hcase := (runIndex_inv fs paths).2 s
    rw [he] at hcase
    cases e with
    | One prev =>
        simp only [SizeInvEntry] at hcase
        simp only [entryPaths, List.mem_singleton] at hq
        subst hq
        exact mem_sizeFilter_length fs s paths q (headq_some_mem _ _ hcase.1)
    | Multiple m =>
        simp only [SizeInvEntry] at hcase
        simp only [entryPaths, List.mem_map] at hq
        obtain ⟨e', he', heq⟩ := hq
        have := (hcase.1 e' he').2
        subst heq
        exact mem_sizeFilter_length fs s paths e'.2 (List.mem_of_find?_eq_some this)

theorem check_index_size_bucketing_witness :
    (lookupA ((check_index (fun _ => ([1] : List Nat)) 1
        (runIndex (fun _ => ([1] : List Nat)) [0])).2).size_map 5
      = lookupA (runIndex (fun _ => ([1] : List Nat)) [0]).size_map 5)
    ∧ ((fun _ => ([1] : List Nat)) 0).length = 1 :=
  ⟨(check_index_size_bucketing (fun _ => ([1] : List Nat)) [0] 1 5).1 (by decide),
    (check_index_size_bucketing (fun _ => ([1] : List Nat)) [0] 1 1).2
      (SizeMapEntry.One 0) (by decide) 0 (by decide)⟩

end Dedup
